import Mathlib

/-!
Verification of the opinion-aggregation, free-text parsing, risk-level
extraction and workflow-orchestration logic of the ai-hedge-fund repository.

Modelling conventions:
* Python ints are `Int` (or `Nat` where the source value is obtained by parsing
  a digit string); Python float division is modelled exactly over `ℚ`.
* Python dicts preserve insertion order; grouping opinions by ticker is
  modelled by a first-seen dedup of the tickers together with `List.filter`.
* Fallible Python code (a `KeyError`, a raised exception) is modelled with
  `Option` / `Except`; an LLM completion call is an oracle parameter of type
  `... → Except String String` giving the response text or the error message.
* The regex classes are modelled on the character sets relevant to the claims:
  whitespace as the six standard ASCII whitespace characters, digits as the
  ASCII digits, word characters as ASCII alphanumerics, underscore and the
  Cyrillic letters.
-/

/-- `AgentOpinion` from src/utils/models.py: one persona's opinion on one
ticker.  `action` is a plain string in the source (expected BUY/SELL/HOLD). -/
structure AgentOpinion where
  agent_name : String
  ticker : String
  action : String
  confidence : Int
  reasoning : String
  deriving DecidableEq, Repr

/-- `AggregatedDecision` from src/utils/models.py; the two float fields are
modelled over `ℚ`. -/
structure AggregatedDecision where
  ticker : String
  final_action : String
  confidence_score : ℚ
  agent_opinions : List AgentOpinion
  consensus_strength : ℚ
  deriving DecidableEq, Repr

/-- `RiskAssessment` from src/utils/models.py (its comment documents
`risk_level: int  # 1-10`). -/
structure RiskAssessment where
  ticker : String
  risk_level : Nat
  risk_factors : List String
  recommendations : String
  deriving DecidableEq, Repr

/-- The action keys of the vote dictionary
`action_votes = {"BUY": 0, "SELL": 0, "HOLD": 0}` (src/utils.py line 35),
in its insertion order. -/
def actionStrings : List String := ["BUY", "SELL", "HOLD"]

/-- The three-way vote tally `action_votes`, with the dict's insertion order
BUY, SELL, HOLD reflected in the field order. -/
structure Votes where
  buy : Int
  sell : Int
  hold : Int
  deriving DecidableEq, Repr

/-- The tally loop of src/utils.py lines 38-39:
`action_votes[opinion.action] += opinion.confidence`.  Indexing the dict with
any other action string raises a `KeyError`, modelled as `none`. -/
def tallyVotes : Votes → List AgentOpinion → Option Votes
  | v, [] => some v
  | v, o :: os =>
    if o.action = "BUY" then tallyVotes { v with buy := v.buy + o.confidence } os
    else if o.action = "SELL" then tallyVotes { v with sell := v.sell + o.confidence } os
    else if o.action = "HOLD" then tallyVotes { v with hold := v.hold + o.confidence } os
    else none

/-- `max(action_votes, key=action_votes.get)` (src/utils.py line 43): Python's
`max` scans the keys in dict order BUY, SELL, HOLD and replaces the current
best only on a strictly greater value, so the first maximal entry wins. -/
def finalActionOf (v : Votes) : String :=
  if v.sell > v.buy then (if v.hold > v.sell then "HOLD" else "SELL")
  else (if v.hold > v.buy then "HOLD" else "BUY")

/-- `max(action_votes.values())` (src/utils.py line 46). -/
def maxVotesOf (v : Votes) : Int := max v.buy (max v.sell v.hold)

/-- `sum(action_votes.values())` (src/utils.py line 47). -/
def totalVotesOf (v : Votes) : Int := v.buy + v.sell + v.hold

/-- The `total_confidence` accumulator of src/utils.py lines 36/40. -/
def totalConfidence (g : List AgentOpinion) : Int :=
  (g.map (·.confidence)).sum

/-- The group `ticker_opinions[t]` built by src/utils.py lines 27-30:
appending in input order is the same as filtering the input by ticker. -/
def opinionsFor (ops : List AgentOpinion) (t : String) : List AgentOpinion :=
  ops.filter (fun o => o.ticker = t)

/-- One step of first-seen dedup: a dict/set instruction that records `t` only
if it has not been seen. -/
def insertUnique (acc : List String) (t : String) : List String :=
  if t ∈ acc then acc else acc ++ [t]

/-- First-seen dedup of a list of tickers (insertion order of a Python dict). -/
def insertionDedup (l : List String) : List String := l.foldl insertUnique []

/-- The keys of `ticker_opinions` (src/utils.py lines 24-30) in insertion
order. -/
def tickersOf (ops : List AgentOpinion) : List String :=
  insertionDedup (ops.map (·.ticker))

/-- The body of the per-ticker loop of src/utils.py lines 33-59, producing one
`AggregatedDecision` for the group `g` of ticker `t`. -/
def decisionFor (t : String) (g : List AgentOpinion) : Option AggregatedDecision :=
  match tallyVotes ⟨0, 0, 0⟩ g with
  | none => none
  | some v =>
    some { ticker := t
           final_action := finalActionOf v
           confidence_score :=
             if g.length = 0 then 0 else (totalConfidence g : ℚ) / (g.length : ℚ)
           agent_opinions := g
           consensus_strength :=
             if 0 < totalVotesOf v then (maxVotesOf v : ℚ) / (totalVotesOf v : ℚ)
             else 0 }

/-- The loop of src/utils.py lines 33-59 over the groups in insertion order,
collecting the aggregated decisions; a `KeyError` in any group aborts the
whole call. -/
def aggregateTickers (ops : List AgentOpinion) : List String → Option (List AggregatedDecision)
  | [] => some []
  | t :: ts =>
    match decisionFor t (opinionsFor ops t), aggregateTickers ops ts with
    | some d, some l => some (d :: l)
    | _, _ => none

/-- `aggregate_agent_opinions` (src/utils.py lines 22-61). -/
def aggregate_agent_opinions (ops : List AgentOpinion) : Option (List AggregatedDecision) :=
  aggregateTickers ops (tickersOf ops)

/-- All actions of a list of opinions are among BUY, SELL, HOLD. -/
def ValidActions (ops : List AgentOpinion) : Prop :=
  ∀ o ∈ ops, o.action ∈ actionStrings

/-- All confidences of a list of opinions lie in [1,10]. -/
def ValidConfs (ops : List AgentOpinion) : Prop :=
  ∀ o ∈ ops, 1 ≤ o.confidence ∧ o.confidence ≤ 10

/-- Spec-side definition: the summed confidence of action `a` among the
opinions `g` ("the action with the maximum summed confidence among T's
opinions"). -/
def sumConf (g : List AgentOpinion) (a : String) : Int :=
  ((g.filter (fun o => o.action = a)).map (·.confidence)).sum

/-- Spec-side tally of a group, one component per action. -/
def specVotes (g : List AgentOpinion) : Votes :=
  ⟨sumConf g "BUY", sumConf g "SELL", sumConf g "HOLD"⟩

/-- Spec-side definition of the winning action, following the spec's words:
the action with the maximum summed confidence, ties resolved by the fixed
enumeration order BUY, SELL, HOLD (the first maximal entry wins). -/
def specFinalAction (g : List AgentOpinion) : String :=
  if sumConf g "BUY" ≥ sumConf g "SELL" ∧ sumConf g "BUY" ≥ sumConf g "HOLD" then "BUY"
  else if sumConf g "SELL" ≥ sumConf g "HOLD" then "SELL"
  else "HOLD"

/-- Closed form of the decision the aggregator produces for a ticker whose
group has only valid actions (proved below in `decisionFor_valid`). -/
def theDec (ops : List AgentOpinion) (t : String) : AggregatedDecision :=
  let g := opinionsFor ops t
  let v := specVotes g
  { ticker := t
    final_action := finalActionOf v
    confidence_score :=
      if g.length = 0 then 0 else (totalConfidence g : ℚ) / (g.length : ℚ)
    agent_opinions := g
    consensus_strength :=
      if 0 < totalVotesOf v then (maxVotesOf v : ℚ) / (totalVotesOf v : ℚ) else 0 }

lemma sumConf_cons (o : AgentOpinion) (g : List AgentOpinion) (a : String) :
    sumConf (o :: g) a = (if o.action = a then o.confidence else 0) + sumConf g a := by
  by_cases h : o.action = a <;> simp [sumConf, h]

lemma tallyVotes_valid (g : List AgentOpinion) (hv : ∀ o ∈ g, o.action ∈ actionStrings) :
    ∀ v : Votes, tallyVotes v g =
      some ⟨v.buy + sumConf g "BUY", v.sell + sumConf g "SELL", v.hold + sumConf g "HOLD"⟩ := by
  induction g with
  | nil => intro v; simp [tallyVotes, sumConf]
  | cons o os ih =>
    intro v
    have ho := hv o (by simp)
    have hos : ∀ o' ∈ os, o'.action ∈ actionStrings := fun o' h' => hv o' (by simp [h'])
    simp only [actionStrings, List.mem_cons, List.mem_singleton, List.not_mem_nil,
      or_false] at ho
    rcases ho with h | h | h <;>
      simp only [tallyVotes, h, if_true, if_false, ih hos,
        sumConf_cons, reduceIte, String.reduceEq] <;>
      congr 1 <;> simp <;> ring

lemma tallyVotes_spec (g : List AgentOpinion) (hv : ∀ o ∈ g, o.action ∈ actionStrings) :
    tallyVotes ⟨0, 0, 0⟩ g = some (specVotes g) := by
  rw [tallyVotes_valid g hv ⟨0, 0, 0⟩]
  simp [specVotes]

lemma decisionFor_valid (ops : List AgentOpinion) (t : String)
    (hv : ∀ o ∈ opinionsFor ops t, o.action ∈ actionStrings) :
    decisionFor t (opinionsFor ops t) = some (theDec ops t) := by
  simp [decisionFor, tallyVotes_spec _ hv, theDec]

lemma validActions_filter (ops : List AgentOpinion) (hv : ValidActions ops) (t : String) :
    ∀ o ∈ opinionsFor ops t, o.action ∈ actionStrings :=
  fun o ho => hv o (List.mem_of_mem_filter ho)

lemma aggregateTickers_valid (ops : List AgentOpinion) (hv : ValidActions ops) :
    ∀ ts : List String, aggregateTickers ops ts = some (ts.map (theDec ops)) := by
  intro ts
  induction ts with
  | nil => simp [aggregateTickers]
  | cons t ts ih =>
    simp [aggregateTickers, decisionFor_valid ops t (validActions_filter ops hv t), ih]

/-- Under valid actions the aggregator succeeds and its output is the
insertion-ordered list of per-ticker decisions. -/
lemma aggregate_valid (ops : List AgentOpinion) (hv : ValidActions ops) :
    aggregate_agent_opinions ops = some ((tickersOf ops).map (theDec ops)) :=
  aggregateTickers_valid ops hv (tickersOf ops)

lemma mem_insertUnique (acc : List String) (t u : String) :
    u ∈ insertUnique acc t ↔ u ∈ acc ∨ u = t := by
  by_cases h : t ∈ acc
  · simp only [insertUnique, h, if_true]
    constructor
    · exact fun hu => Or.inl hu
    · rintro (hu | rfl) <;> [exact hu; exact h]
  · simp [insertUnique, h]

lemma mem_foldl_insertUnique (l : List String) :
    ∀ acc u, u ∈ l.foldl insertUnique acc ↔ u ∈ acc ∨ u ∈ l := by
  induction l with
  | nil => simp
  | cons t ts ih =>
    intro acc u
    simp only [List.foldl_cons, ih, mem_insertUnique, List.mem_cons]
    tauto

lemma mem_insertionDedup (l : List String) (u : String) :
    u ∈ insertionDedup l ↔ u ∈ l := by
  simp [insertionDedup, mem_foldl_insertUnique]

lemma nodup_foldl_insertUnique (l : List String) :
    ∀ acc : List String, acc.Nodup → (l.foldl insertUnique acc).Nodup := by
  induction l with
  | nil => intro acc h; simpa using h
  | cons t ts ih =>
    intro acc hacc
    refine ih _ ?_
    by_cases h : t ∈ acc
    · simpa [insertUnique, h] using hacc
    · simp [insertUnique, h, List.nodup_append, hacc]

lemma nodup_insertionDedup (l : List String) : (insertionDedup l).Nodup :=
  nodup_foldl_insertUnique l [] List.nodup_nil

lemma mem_tickersOf (ops : List AgentOpinion) (t : String) :
    t ∈ tickersOf ops ↔ ∃ o ∈ ops, o.ticker = t := by
  simp only [tickersOf, mem_insertionDedup, List.mem_map]

lemma opinionsFor_ne_nil (ops : List AgentOpinion) (t : String)
    (ht : t ∈ tickersOf ops) : opinionsFor ops t ≠ [] := by
  rcases (mem_tickersOf ops t).1 ht with ⟨o, ho, rfl⟩
  have : o ∈ opinionsFor ops o.ticker := by
    simp [opinionsFor, ho]
  intro hnil
  rw [hnil] at this
  exact List.not_mem_nil o this

/-- The code's first-max scan over the tally agrees with the spec's
"first maximal entry in enumeration order BUY, SELL, HOLD". -/
lemma finalActionOf_eq_spec (g : List AgentOpinion) :
    finalActionOf (specVotes g) = specFinalAction g := by
  simp only [finalActionOf, specVotes, specFinalAction]
  split_ifs <;> first | rfl | omega

lemma sumConf_perm {g g' : List AgentOpinion} (h : g.Perm g') (a : String) :
    sumConf g a = sumConf g' a :=
  List.Perm.sum_eq (List.Perm.map _ (List.Perm.filter _ h))

lemma specVotes_perm {g g' : List AgentOpinion} (h : g.Perm g') :
    specVotes g = specVotes g' := by
  simp [specVotes, sumConf_perm h]

lemma theDec_ticker (ops : List AgentOpinion) (t : String) :
    (theDec ops t).ticker = t := rfl

lemma theDec_final_action (ops : List AgentOpinion) (t : String) :
    (theDec ops t).final_action = specFinalAction (opinionsFor ops t) := by
  simp [theDec, finalActionOf_eq_spec]

lemma theDec_opinions (ops : List AgentOpinion) (t : String) :
    (theDec ops t).agent_opinions = opinionsFor ops t := rfl

lemma theDec_consensus (ops : List AgentOpinion) (t : String) :
    (theDec ops t).consensus_strength =
      (if 0 < totalVotesOf (specVotes (opinionsFor ops t)) then
        (maxVotesOf (specVotes (opinionsFor ops t)) : ℚ) /
          (totalVotesOf (specVotes (opinionsFor ops t)) : ℚ)
       else 0) := rfl

/-- C1: for every sequence of opinions whose actions lie in {BUY, SELL, HOLD}
and every ticker T occurring in it, the decision `aggregate_agent_opinions`
produces for T has `final_action` equal to the action with the maximum summed
confidence among T's opinions, ties resolved by the enumeration order
BUY, SELL, HOLD (first maximal entry wins); and this `final_action` is
unchanged when T's group of opinions is reordered in the input. -/
theorem aggregate_final_action
    (ops ops' : List AgentOpinion) (T : String)
    (hv : ValidActions ops) (hv' : ValidActions ops')
    (hT : T ∈ tickersOf ops)
    (hperm : (opinionsFor ops' T).Perm (opinionsFor ops T)) :
    ∃ l, aggregate_agent_opinions ops = some l ∧
      ∃ d ∈ l, d.ticker = T ∧ (∀ d' ∈ l, d'.ticker = T → d' = d) ∧
        d.final_action = specFinalAction (opinionsFor ops T) ∧
        ∀ l', aggregate_agent_opinions ops' = some l' →
          ∀ d' ∈ l', d'.ticker = T → d'.final_action = d.final_action := by
  refine ⟨_, aggregate_valid ops hv, theDec ops T, List.mem_map_of_mem _ hT,
    theDec_ticker ops T, ?_, theDec_final_action ops T, ?_⟩
  · intro d' hd' hd'T
    rcases List.mem_map.1 hd' with ⟨t', _, rfl⟩
    rw [theDec_ticker] at hd'T
    rw [hd'T]
  · intro l' hl' d' hd' hd'T
    rw [aggregate_valid ops' hv'] at hl'
    cases hl'
    rcases List.mem_map.1 hd' with ⟨t', _, rfl⟩
    rw [theDec_ticker] at hd'T
    subst hd'T
    rw [theDec_final_action, theDec_final_action]
    simp only [specFinalAction, sumConf_perm hperm]

/-- The worked example of spec §8: opinions (BUY,8), (BUY,6), (SELL,9) on
ticker X. -/
def exOps : List AgentOpinion :=
  [⟨"Buffett", "X", "BUY", 8, "r1"⟩,
   ⟨"Trump", "X", "BUY", 6, "r2"⟩,
   ⟨"Dalio", "X", "SELL", 9, "r3"⟩]

/-- Witness for C1 at the spec's own example: the aggregator succeeds and the
decision for X carries the spec-side arg-max action. -/
theorem aggregate_final_action_witness :
    ∃ l, aggregate_agent_opinions exOps = some l ∧
      ∃ d ∈ l, d.ticker = "X" ∧ d.final_action = specFinalAction (opinionsFor exOps "X") := by
  obtain ⟨l, hl, d, hd, ht, _, hf, _⟩ :=
    aggregate_final_action exOps exOps "X" (by unfold ValidActions; decide)
      (by unfold ValidActions; decide) (by decide) (List.Perm.refl _)
  exact ⟨l, hl, d, hd, ht, hf⟩

lemma sumConf_nonneg (g : List AgentOpinion) (hc : ∀ o ∈ g, 1 ≤ o.confidence) (a : String) :
    0 ≤ sumConf g a := by
  apply List.sum_nonneg
  intro x hx
  rcases List.mem_map.1 hx with ⟨o, ho, rfl⟩
  have := hc o (List.mem_of_mem_filter ho)
  omega

lemma sumConf_eq_zero_iff (g : List AgentOpinion) (hc : ∀ o ∈ g, 1 ≤ o.confidence)
    (a : String) : sumConf g a = 0 ↔ ∀ o ∈ g, o.action ≠ a := by
  induction g with
  | nil => simp [sumConf]
  | cons o os ih =>
    have hco := hc o (by simp)
    have hcos : ∀ o' ∈ os, 1 ≤ o'.confidence := fun o' h' => hc o' (by simp [h'])
    have hos0 : 0 ≤ sumConf os a := sumConf_nonneg os hcos a
    rw [sumConf_cons]
    by_cases h : o.action = a
    · simp only [h, if_true]
      constructor
      · intro he; exfalso; omega
      · intro hall; exact absurd h (hall o (by simp))
    · simp only [h, if_false, List.mem_cons, zero_add]
      rw [ih hcos]
      constructor
      · rintro hall o' (rfl | ho') <;> [exact h; exact hall o' ho']
      · intro hall o' ho'; exact hall o' (Or.inr ho')

lemma totalVotes_spec (g : List AgentOpinion) (hv : ∀ o ∈ g, o.action ∈ actionStrings) :
    totalVotesOf (specVotes g) = totalConfidence g := by
  induction g with
  | nil => simp [totalVotesOf, specVotes, sumConf, totalConfidence]
  | cons o os ih =>
    have ho := hv o (by simp)
    have hos : ∀ o' ∈ os, o'.action ∈ actionStrings :=
      fun o' h' => hv o' (List.mem_cons_of_mem _ h')
    have ih' := ih hos
    simp only [actionStrings, List.mem_cons, List.not_mem_nil, or_false] at ho
    simp only [totalVotesOf, specVotes] at ih' ⊢
    rw [sumConf_cons, sumConf_cons, sumConf_cons]
    simp only [totalConfidence, List.map_cons, List.sum_cons] at ih' ⊢
    rcases ho with h | h | h <;> simp only [h, String.reduceEq, if_true, if_false] <;> omega

lemma length_le_totalConfidence (g : List AgentOpinion)
    (hc : ∀ o ∈ g, 1 ≤ o.confidence) : (g.length : Int) ≤ totalConfidence g := by
  induction g with
  | nil => simp [totalConfidence]
  | cons o os ih =>
    have hco := hc o (by simp)
    have := ih (fun o' h' => hc o' (by simp [h']))
    simp only [totalConfidence, List.map_cons, List.sum_cons, List.length_cons] at *
    push_cast
    omega

lemma maxVotes_le_total (v : Votes) (hb : 0 ≤ v.buy) (hs : 0 ≤ v.sell) (hh : 0 ≤ v.hold) :
    maxVotesOf v ≤ totalVotesOf v := by
  simp only [maxVotesOf, totalVotesOf, max_le_iff]
  omega

lemma maxVotes_pos (v : Votes) (ht : 0 < totalVotesOf v)
    (hb : 0 ≤ v.buy) (hs : 0 ≤ v.sell) (hh : 0 ≤ v.hold) : 0 < maxVotesOf v := by
  simp only [maxVotesOf, lt_max_iff]
  simp only [totalVotesOf] at ht
  omega

lemma max_eq_total_iff (v : Votes) (hb : 0 ≤ v.buy) (hs : 0 ≤ v.sell) (hh : 0 ≤ v.hold) :
    maxVotesOf v = totalVotesOf v ↔
      (v.sell = 0 ∧ v.hold = 0) ∨ (v.buy = 0 ∧ v.hold = 0) ∨ (v.buy = 0 ∧ v.sell = 0) := by
  simp only [maxVotesOf, totalVotesOf, max_def]
  split_ifs <;> omega

lemma zero_components_iff_same_action (g : List AgentOpinion)
    (hv : ∀ o ∈ g, o.action ∈ actionStrings) (hc : ∀ o ∈ g, 1 ≤ o.confidence)
    (hne : g ≠ []) :
    ((sumConf g "SELL" = 0 ∧ sumConf g "HOLD" = 0) ∨
     (sumConf g "BUY" = 0 ∧ sumConf g "HOLD" = 0) ∨
     (sumConf g "BUY" = 0 ∧ sumConf g "SELL" = 0)) ↔
      ∀ o ∈ g, ∀ o' ∈ g, o.action = o'.action := by
  rw [sumConf_eq_zero_iff g hc, sumConf_eq_zero_iff g hc, sumConf_eq_zero_iff g hc]
  constructor
  · rintro (⟨h1, h2⟩ | ⟨h1, h2⟩ | ⟨h1, h2⟩) o ho o' ho' <;>
    · have hvo := hv o ho
      have hvo' := hv o' ho'
      simp only [actionStrings, List.mem_cons, List.not_mem_nil, or_false] at hvo hvo'
      have := h1 o ho
      have := h2 o ho
      have := h1 o' ho'
      have := h2 o' ho'
      rcases hvo with h | h | h <;> rcases hvo' with h' | h' | h' <;>
        simp_all
  · intro hall
    rcases List.exists_mem_of_ne_nil g hne with ⟨o₀, ho₀⟩
    have hvo₀ := hv o₀ ho₀
    simp only [actionStrings, List.mem_cons, List.not_mem_nil, or_false] at hvo₀
    rcases hvo₀ with h | h | h
    · refine Or.inl ⟨?_, ?_⟩ <;>
      · intro o ho
        rw [hall o ho o₀ ho₀, h]
        decide
    · refine Or.inr (Or.inl ⟨?_, ?_⟩) <;>
      · intro o ho
        rw [hall o ho o₀ ho₀, h]
        decide
    · refine Or.inr (Or.inr ⟨?_, ?_⟩) <;>
      · intro o ho
        rw [hall o ho o₀ ho₀, h]
        decide

/-- C2: for every decision produced from opinions with valid actions and
confidences in [1,10], `consensus_strength` equals max(tally)/sum(tally),
lies in [0,1], equals 0 iff all confidences in the ticker's group are 0
(vacuously: the group is nonempty with positive confidences), and equals 1
iff every opinion in the group chose the same action. -/
theorem aggregate_consensus_strength
    (ops : List AgentOpinion) (T : String)
    (hv : ValidActions ops) (hc : ValidConfs ops) (hT : T ∈ tickersOf ops) :
    ∃ l, aggregate_agent_opinions ops = some l ∧
      ∃ d ∈ l, d.ticker = T ∧
        d.consensus_strength =
          (maxVotesOf (specVotes (opinionsFor ops T)) : ℚ) /
            (totalVotesOf (specVotes (opinionsFor ops T)) : ℚ) ∧
        0 ≤ d.consensus_strength ∧ d.consensus_strength ≤ 1 ∧
        (d.consensus_strength = 0 ↔ ∀ o ∈ opinionsFor ops T, o.confidence = 0) ∧
        (d.consensus_strength = 1 ↔
          ∀ o ∈ opinionsFor ops T, ∀ o' ∈ opinionsFor ops T, o.action = o'.action) := by
  have hvg : ∀ o ∈ opinionsFor ops T, o.action ∈ actionStrings := validActions_filter ops hv T
  have hcg : ∀ o ∈ opinionsFor ops T, 1 ≤ o.confidence :=
    fun o ho => (hc o (List.mem_of_mem_filter ho)).1
  have hne : opinionsFor ops T ≠ [] := opinionsFor_ne_nil ops T hT
  have hb : 0 ≤ (specVotes (opinionsFor ops T)).buy := sumConf_nonneg _ hcg "BUY"
  have hs : 0 ≤ (specVotes (opinionsFor ops T)).sell := sumConf_nonneg _ hcg "SELL"
  have hh : 0 ≤ (specVotes (opinionsFor ops T)).hold := sumConf_nonneg _ hcg "HOLD"
  have hlen : 1 ≤ (opinionsFor ops T).length := by
    rcases h : opinionsFor ops T with _ | ⟨o, os⟩
    · exact absurd h hne
    · simp
  have htot : 0 < totalVotesOf (specVotes (opinionsFor ops T)) := by
    rw [totalVotes_spec _ hvg]
    have h1 := length_le_totalConfidence _ hcg
    have h2 : (1 : Int) ≤ ((opinionsFor ops T).length : Int) := by exact_mod_cast hlen
    omega
  have hmaxpos : 0 < maxVotesOf (specVotes (opinionsFor ops T)) :=
    maxVotes_pos _ htot hb hs hh
  have hmaxle : maxVotesOf (specVotes (opinionsFor ops T)) ≤
      totalVotesOf (specVotes (opinionsFor ops T)) := maxVotes_le_total _ hb hs hh
  have htotQ : (0:ℚ) < ((totalVotesOf (specVotes (opinionsFor ops T)) : Int) : ℚ) := by
    exact_mod_cast htot
  have hmaxQ : (0:ℚ) < ((maxVotesOf (specVotes (opinionsFor ops T)) : Int) : ℚ) := by
    exact_mod_cast hmaxpos
  have hcseq : (theDec ops T).consensus_strength =
      (maxVotesOf (specVotes (opinionsFor ops T)) : ℚ) /
        (totalVotesOf (specVotes (opinionsFor ops T)) : ℚ) := by
    rw [theDec_consensus, if_pos htot]
  refine ⟨_, aggregate_valid ops hv, theDec ops T, List.mem_map_of_mem _ hT,
    theDec_ticker ops T, hcseq, ?_, ?_, ?_, ?_⟩
  · rw [hcseq]
    exact div_nonneg hmaxQ.le htotQ.le
  · rw [hcseq, div_le_one htotQ]
    exact_mod_cast hmaxle
  · rw [hcseq]
    constructor
    · intro h0
      rcases div_eq_zero_iff.1 h0 with h | h
      · exact absurd h hmaxQ.ne'
      · exact absurd h htotQ.ne'
    · intro hall
      exfalso
      rcases List.exists_mem_of_ne_nil _ hne with ⟨o₀, ho₀⟩
      have h1 := hcg o₀ ho₀
      have h2 := hall o₀ ho₀
      omega
  · rw [hcseq, div_eq_one_iff_eq htotQ.ne', Int.cast_inj,
      max_eq_total_iff _ hb hs hh]
    exact zero_components_iff_same_action _ hvg hcg hne

/-- Witness for C2 at the spec's example: consensus for X is 14/23,
within [0,1], neither 0 nor 1. -/
theorem aggregate_consensus_strength_witness :
    ∃ l, aggregate_agent_opinions exOps = some l ∧
      ∃ d ∈ l, d.ticker = "X" ∧
        d.consensus_strength =
          (maxVotesOf (specVotes (opinionsFor exOps "X")) : ℚ) /
            (totalVotesOf (specVotes (opinionsFor exOps "X")) : ℚ) ∧
        0 ≤ d.consensus_strength ∧ d.consensus_strength ≤ 1 :=
  match aggregate_consensus_strength exOps "X" (by unfold ValidActions; decide)
      (by unfold ValidConfs; decide) (by decide) with
  | ⟨l, hl, d, hd, ht, hf, h0, h1, _, _⟩ => ⟨l, hl, d, hd, ht, hf, h0, h1⟩

/-- `str.upper()` on the characters relevant to the source's keywords:
ASCII letters and the Cyrillic letters (src/investor_agents.py line 73). -/
def upperChar (c : Char) : Char :=
  if 'a' ≤ c ∧ c ≤ 'z' then Char.ofNat (c.toNat - 32)
  else if 'а' ≤ c ∧ c ≤ 'я' then Char.ofNat (c.toNat - 32)
  else if c = 'ё' then 'Ё'
  else c

/-- Substring containment (`"КУПИТЬ" in response_upper`). -/
def containsSeq (pat : List Char) : List Char → Bool
  | [] => pat.isEmpty
  | c :: cs => pat.isPrefixOf (c :: cs) || containsSeq pat cs

/-- Is a character a word character for the regexes of the source (`\w`):
ASCII alphanumerics, underscore and the Cyrillic letters. -/
def isWordChar (c : Char) : Bool :=
  c.isAlphanum || c = '_' || ('а' ≤ c && c ≤ 'я') || ('А' ≤ c && c ≤ 'Я') ||
    c = 'ё' || c = 'Ё'

/-- The numeric value of a run of ASCII digits (`int(num)`). -/
def natOfRun (run : List Char) : Nat :=
  run.foldl (fun n c => 10 * n + (c.toNat - '0'.toNat)) 0

lemma dropWhile_length_le (p : Char → Bool) (l : List Char) :
    (l.dropWhile p).length ≤ l.length := by
  induction l with
  | nil => simp
  | cons a l ih =>
    by_cases h : p a <;> simp [List.dropWhile_cons, h] <;> omega

/-- The maximal digit runs of a string that are matched by `\b(\d+)\b`
(src/investor_agents.py line 83): a run counts only when the character before
it (if any) and after it (if any) are not word characters; `prev` carries the
character preceding the current position. -/
def digitRunsAux (prev : Option Char) (l : List Char) : List Nat :=
  match l with
  | [] => []
  | c :: cs =>
    if c.isDigit then
      let run := c :: cs.takeWhile Char.isDigit
      let rest := cs.dropWhile Char.isDigit
      let okBefore := match prev with | none => true | some p => !(isWordChar p)
      let okAfter := match rest with | [] => true | r :: _ => !(isWordChar r)
      if okBefore && okAfter then natOfRun run :: digitRunsAux (some c) rest
      else digitRunsAux (some c) rest
    else digitRunsAux (some c) cs
termination_by l.length
decreasing_by
  all_goals simp only [List.length_cons]
  all_goals have h9 := dropWhile_length_le Char.isDigit cs
  all_goals omega

/-- `re.findall(r'\b(\d+)\b', response)` converted to integers. -/
def digitRuns (l : List Char) : List Nat := digitRunsAux none l

/-- The confidence loop of src/investor_agents.py lines 82-89: the first
matched integer lying in [1,10], defaulting to 5. -/
def firstConfIn : List Nat → Nat
  | [] => 5
  | n :: ns => if 1 ≤ n ∧ n ≤ 10 then n else firstConfIn ns

/-- The action-detection chain of src/investor_agents.py lines 72-80 over the
uppercased response. -/
def parseAction (resp : List Char) : String :=
  let u := resp.map upperChar
  if containsSeq "КУПИТЬ".data u || containsSeq "BUY".data u then "BUY"
  else if containsSeq "ПРОДАТЬ".data u || containsSeq "SELL".data u then "SELL"
  else if containsSeq "ДЕРЖАТЬ".data u || containsSeq "HOLD".data u then "HOLD"
  else "HOLD"

/-- `InvestorAgent._parse_agent_response` (src/investor_agents.py
lines 69-99). -/
def parse_agent_response (name ticker response : String) : AgentOpinion :=
  { agent_name := name
    ticker := ticker
    action := parseAction response.data
    confidence := (firstConfIn (digitRuns response.data) : Int)
    reasoning := response.trim }

/-- `InvestorAgent.analyze_ticker` (src/investor_agents.py lines 15-44): the
completion call is the oracle outcome `resp`; on an error the degraded
HOLD/1 opinion carries the error message. -/
def analyze_ticker (name ticker : String) (resp : Except String String) : AgentOpinion :=
  match resp with
  | Except.ok r => parse_agent_response name ticker r
  | Except.error e =>
    { agent_name := name
      ticker := ticker
      action := "HOLD"
      confidence := 1
      reasoning := "Ошибка анализа: " ++ e }

/-- The fixed persona registry of `InvestorAgentRoom.__init__`
(src/investor_agents.py lines 105-109), in dict insertion order. -/
def agentNames : List String := ["Buffett", "Trump", "Dalio"]

/-- A position of the portfolio dict (src data: quantity and average price). -/
structure PortfolioPos where
  quantity : Int
  avg_price : ℚ
  deriving DecidableEq, Repr

/-- A news item; `ticker = ""` models a missing or empty ticker field, which
`news.get('ticker')` treats as falsy. -/
structure NewsItem where
  ticker : String
  title : String
  summary : String
  deriving DecidableEq, Repr

/-- The ticker universe built by `discuss_portfolio` (src/investor_agents.py
lines 115-121): the set union of the portfolio keys and the truthy news
tickers, represented canonically as a first-seen dedup list; a Python set
fixes only the membership, not the order. -/
def universeList (portfolio : List (String × PortfolioPos)) (news : List NewsItem) :
    List String :=
  insertionDedup (portfolio.map Prod.fst ++
    news.filterMap (fun n => if n.ticker = "" then none else some n.ticker))

/-- An iteration order the Python set `tickers` may yield: any duplicate-free
enumeration of the universe's members. -/
def admissibleOrder (portfolio : List (String × PortfolioPos)) (news : List NewsItem)
    (ord : List String) : Prop :=
  ord.Nodup ∧ (∀ t ∈ ord, t ∈ universeList portfolio news) ∧
    (∀ t ∈ universeList portfolio news, t ∈ ord)

/-- The discussion loop of `InvestorAgentRoom.discuss_portfolio`
(src/investor_agents.py lines 128-134) for a given set-iteration order `ord`:
for each ticker, each persona in registry order contributes one opinion; the
oracle `f` gives each (persona, ticker) completion outcome. -/
def discuss_portfolio (ord : List String)
    (f : String → String → Except String String) : List AgentOpinion :=
  ord.flatMap (fun t => agentNames.map (fun a => analyze_ticker a t (f a t)))

/-- The (persona, ticker) pairs visited by the discussion loop, in visit
order. -/
def personaPairs (ord : List String) : List (String × String) :=
  ord.flatMap (fun t => agentNames.map (fun a => (a, t)))

/-- Replace the completion outcome of one (persona, ticker) pair by a raised
exception with message `e`. -/
def failPair (f : String → String → Except String String) (a0 t0 e : String) :
    String → String → Except String String :=
  fun a t => if a = a0 ∧ t = t0 then Except.error e else f a t

lemma discuss_eq_pairs_map (ord : List String)
    (f : String → String → Except String String) :
    discuss_portfolio ord f =
      (personaPairs ord).map (fun p => analyze_ticker p.1 p.2 (f p.1 p.2)) := by
  induction ord with
  | nil => rfl
  | cons t ts ih =>
    simp only [discuss_portfolio, personaPairs, List.flatMap_cons, List.map_append,
      List.map_map] at *
    rw [ih]
    rfl

lemma discuss_length (ord : List String) (f : String → String → Except String String) :
    (discuss_portfolio ord f).length = 3 * ord.length := by
  induction ord with
  | nil => rfl
  | cons t ts ih =>
    simp only [discuss_portfolio, List.flatMap_cons, List.length_append,
      List.length_cons, agentNames, List.map_cons, List.map_nil, List.length_nil] at *
    omega

/-- C7: a completion failure for one (persona, ticker) pair yields exactly the
degraded HOLD/1 opinion carrying the error message, leaves every other pair's
opinion unchanged, and the panel still collects one opinion per
(persona, ticker) pair — the exception never propagates. -/
theorem analyze_failure_isolated (ord : List String)
    (f : String → String → Except String String) (a0 t0 e : String) :
    analyze_ticker a0 t0 (Except.error e) =
      ⟨a0, t0, "HOLD", 1, "Ошибка анализа: " ++ e⟩ ∧
    discuss_portfolio ord (failPair f a0 t0 e) =
      (personaPairs ord).map (fun p =>
        if p.1 = a0 ∧ p.2 = t0 then ⟨a0, t0, "HOLD", 1, "Ошибка анализа: " ++ e⟩
        else analyze_ticker p.1 p.2 (f p.1 p.2)) ∧
    (discuss_portfolio ord (failPair f a0 t0 e)).length = 3 * ord.length := by
  refine ⟨rfl, ?_, discuss_length ord _⟩
  rw [discuss_eq_pairs_map]
  apply List.map_congr_left
  intro p _
  by_cases h : p.1 = a0 ∧ p.2 = t0
  · rcases h with ⟨h1, h2⟩
    simp [failPair, h1, h2, analyze_ticker]
  · simp only [failPair, if_neg h, h, if_false]

lemma firstConfIn_bounds (ns : List Nat) : 1 ≤ firstConfIn ns ∧ firstConfIn ns ≤ 10 := by
  induction ns with
  | nil => simp [firstConfIn]
  | cons n ns ih => by_cases h : 1 ≤ n ∧ n ≤ 10 <;> simp [firstConfIn, h, ih] <;> omega

lemma parseAction_mem (r : List Char) : parseAction r ∈ actionStrings := by
  simp only [parseAction]
  split_ifs <;> decide

/-- Every opinion the panel can produce is structurally valid. -/
def ValidOpinion (o : AgentOpinion) : Prop :=
  o.action ∈ actionStrings ∧ 1 ≤ o.confidence ∧ o.confidence ≤ 10

lemma analyze_ticker_valid (name ticker : String) (resp : Except String String) :
    ValidOpinion (analyze_ticker name ticker resp) := by
  cases resp with
  | ok r =>
    refine ⟨parseAction_mem r.data, ?_, ?_⟩ <;>
    · have := firstConfIn_bounds (digitRuns r.data)
      simp only [analyze_ticker, parse_agent_response]
      omega
  | error e =>
    exact ⟨show "HOLD" ∈ actionStrings by decide, show (1:Int) ≤ 1 by decide,
      show (1:Int) ≤ 10 by decide⟩

lemma tallyVotes_invalid (g : List AgentOpinion)
    (hbad : ∃ o ∈ g, o.action ∉ actionStrings) :
    ∀ v, tallyVotes v g = none := by
  induction g with
  | nil => simp at hbad
  | cons o' os ih =>
    intro v
    rcases hbad with ⟨o, ho, hno⟩
    rcases List.mem_cons.1 ho with rfl | ho'
    · have h1 : ¬ o.action = "BUY" := fun h => hno (by simp [actionStrings, h])
      have h2 : ¬ o.action = "SELL" := fun h => hno (by simp [actionStrings, h])
      have h3 : ¬ o.action = "HOLD" := fun h => hno (by simp [actionStrings, h])
      simp [tallyVotes, h1, h2, h3]
    · have ihos := ih ⟨o, ho', hno⟩
      simp only [tallyVotes]
      split_ifs <;> first | exact ihos _ | rfl

lemma aggregateTickers_invalid (ops : List AgentOpinion) (t : String) :
    ∀ ts : List String, t ∈ ts → decisionFor t (opinionsFor ops t) = none →
      aggregateTickers ops ts = none := by
  intro ts
  induction ts with
  | nil => simp
  | cons t' ts' ih =>
    intro ht hd
    rcases List.mem_cons.1 ht with rfl | ht'
    · simp [aggregateTickers, hd]
    · simp only [aggregateTickers, ih ht' hd]
      rcases decisionFor t' (opinionsFor ops t') with _ | d <;> rfl

/-- C10: every opinion the persona panel produces (parsed or degraded) has a
valid action and a confidence in [1,10]; on such opinions the aggregator's
`action_votes[opinion.action]` indexing never fails, so aggregation of panel
output always succeeds — while any opinion carrying a different action string
makes the aggregator raise (`none`). -/
theorem panel_aggregator_safe :
    (∀ (name ticker : String) (resp : Except String String),
      ValidOpinion (analyze_ticker name ticker resp)) ∧
    (∀ (ord : List String) (f : String → String → Except String String),
      (aggregate_agent_opinions (discuss_portfolio ord f)).isSome = true) ∧
    (∀ ops : List AgentOpinion, ValidActions ops →
      (aggregate_agent_opinions ops).isSome = true) ∧
    (∀ (ops : List AgentOpinion) (o : AgentOpinion), o ∈ ops →
      o.action ∉ actionStrings → aggregate_agent_opinions ops = none) := by
  have h3 : ∀ ops : List AgentOpinion, ValidActions ops →
      (aggregate_agent_opinions ops).isSome = true := by
    intro ops hv
    rw [aggregate_valid ops hv]
    rfl
  refine ⟨analyze_ticker_valid, ?_, h3, ?_⟩
  · intro ord f
    apply h3
    intro o ho
    rw [discuss_eq_pairs_map] at ho
    rcases List.mem_map.1 ho with ⟨p, _, rfl⟩
    exact (analyze_ticker_valid p.1 p.2 (f p.1 p.2)).1
  · intro ops o ho hno
    have ht : o.ticker ∈ tickersOf ops := (mem_tickersOf ops o.ticker).2 ⟨o, ho, rfl⟩
    have hog : o ∈ opinionsFor ops o.ticker := by
      simp [opinionsFor, ho]
    have hd : decisionFor o.ticker (opinionsFor ops o.ticker) = none := by
      simp [decisionFor, tallyVotes_invalid _ ⟨o, hog, hno⟩ ⟨0, 0, 0⟩]
    exact aggregateTickers_invalid ops o.ticker (tickersOf ops) ht hd

/-- Witness for C10: a parsed Russian BUY response is valid, and an opinion
with action "WAIT" makes the aggregator fail. -/
theorem panel_aggregator_safe_witness :
    ValidOpinion (analyze_ticker "Buffett" "SBER" (Except.ok "КУПИТЬ, УВЕРЕННОСТЬ: 8")) ∧
    aggregate_agent_opinions [⟨"Buffett", "SBER", "WAIT", 3, "r"⟩] = none :=
  ⟨panel_aggregator_safe.1 "Buffett" "SBER" (Except.ok "КУПИТЬ, УВЕРЕННОСТЬ: 8"),
   panel_aggregator_safe.2.2.2 [⟨"Buffett", "SBER", "WAIT", 3, "r"⟩]
     ⟨"Buffett", "SBER", "WAIT", 3, "r"⟩ (by decide) (by decide)⟩

lemma mem_universeList (portfolio : List (String × PortfolioPos)) (news : List NewsItem)
    (t : String) :
    t ∈ universeList portfolio news ↔
      (∃ p ∈ portfolio, p.1 = t) ∨ (∃ n ∈ news, n.ticker = t ∧ t ≠ "") := by
  simp only [universeList, mem_insertionDedup, List.mem_append, List.mem_map,
    List.mem_filterMap]
  apply or_congr
  · constructor
    · rintro ⟨p, hp, rfl⟩; exact ⟨p, hp, rfl⟩
    · rintro ⟨p, hp, rfl⟩; exact ⟨p, hp, rfl⟩
  · constructor
    · rintro ⟨n, hn, hf⟩
      by_cases h : n.ticker = ""
      · simp [h] at hf
      · simp only [h, if_false, if_neg h, Option.some.injEq] at hf
        exact ⟨n, hn, hf, hf ▸ h⟩
    · rintro ⟨n, hn, rfl, hne⟩
      exact ⟨n, hn, by simp [hne]⟩

lemma admissible_perm (portfolio : List (String × PortfolioPos)) (news : List NewsItem)
    (ord : List String) (h : admissibleOrder portfolio news ord) :
    ord.Perm (universeList portfolio news) := by
  rcases h with ⟨hnd, h1, h2⟩
  exact (List.perm_ext_iff_of_nodup hnd (nodup_insertionDedup _)).2
    (fun t => ⟨fun ht => h1 t ht, fun ht => h2 t ht⟩)

lemma analyze_ticker_ticker (a t : String) (resp : Except String String) :
    (analyze_ticker a t resp).ticker = t := by
  cases resp <;> rfl

lemma analyze_ticker_agent (a t : String) (resp : Except String String) :
    (analyze_ticker a t resp).agent_name = a := by
  cases resp <;> rfl

lemma discuss_tickers_seq (ord : List String) (f : String → String → Except String String) :
    (discuss_portfolio ord f).map (·.ticker) = ord.flatMap (fun t => [t, t, t]) := by
  induction ord with
  | nil => rfl
  | cons t ts ih =>
    simp only [discuss_portfolio, List.flatMap_cons, List.map_append] at *
    rw [ih]
    simp [agentNames, analyze_ticker_ticker]

lemma discuss_agents_seq (ord : List String) (f : String → String → Except String String) :
    (discuss_portfolio ord f).map (·.agent_name) = ord.flatMap (fun _ => agentNames) := by
  induction ord with
  | nil => rfl
  | cons t ts ih =>
    simp only [discuss_portfolio, List.flatMap_cons, List.map_append] at *
    rw [ih]
    simp [agentNames, analyze_ticker_agent]

/-- C6 (amended): the processed ticker universe is exactly the deduplicated
union of the portfolio keys and the non-empty news tickers, each ticker is
visited once with the three personas in registry order — but the visit order
is only some enumeration of the Python set, not a canonical sorted order. -/
theorem discuss_universe (portfolio : List (String × PortfolioPos)) (news : List NewsItem)
    (ord : List String) (f : String → String → Except String String)
    (h : admissibleOrder portfolio news ord) :
    ord.Perm (universeList portfolio news) ∧
    (∀ t, t ∈ (discuss_portfolio ord f).map (·.ticker) ↔
      (∃ p ∈ portfolio, p.1 = t) ∨ (∃ n ∈ news, n.ticker = t ∧ t ≠ "")) ∧
    (discuss_portfolio ord f).map (·.ticker) = ord.flatMap (fun t => [t, t, t]) ∧
    (discuss_portfolio ord f).map (·.agent_name) =
      ord.flatMap (fun _ => agentNames) := by
  refine ⟨admissible_perm portfolio news ord h, ?_, discuss_tickers_seq ord f,
    discuss_agents_seq ord f⟩
  intro t
  rw [discuss_tickers_seq ord f, ← mem_universeList portfolio news t]
  simp only [List.mem_flatMap, List.mem_cons, List.not_mem_nil, or_false]
  constructor
  · rintro ⟨u, hu, rfl | rfl | rfl⟩ <;> exact h.2.1 _ hu
  · intro ht
    exact ⟨t, h.2.2 t ht, Or.inl rfl⟩

/-- A concrete two-ticker portfolio used to exhibit order nondeterminism. -/
def cPortfolio : List (String × PortfolioPos) := [("AAA", ⟨1, 10⟩), ("BBB", ⟨2, 20⟩)]

/-- A concrete completion oracle (every call fails). -/
def cOracle : String → String → Except String String := fun _ _ => Except.error "down"

/-- C6 counterexample: the source iterates the raw Python set `tickers`
(sorting appears only in a log line), so both enumerations of {AAA, BBB} are
admissible iteration orders of the same input — and they visit the tickers in
different sequences, refuting that two runs over the same input always visit
tickers in the same stable order. -/
theorem discuss_order_counterexample :
    admissibleOrder cPortfolio [] ["AAA", "BBB"] ∧
    admissibleOrder cPortfolio [] ["BBB", "AAA"] ∧
    (discuss_portfolio ["AAA", "BBB"] cOracle).map (·.ticker) ≠
      (discuss_portfolio ["BBB", "AAA"] cOracle).map (·.ticker) := by
  refine ⟨⟨by decide, by decide, by decide⟩, ⟨by decide, by decide, by decide⟩, by decide⟩

/-- Witness for the amended C6 at a concrete admissible order. -/
theorem discuss_universe_witness :
    (["AAA", "BBB"] : List String).Perm (universeList cPortfolio []) ∧
    (discuss_portfolio ["AAA", "BBB"] cOracle).map (·.ticker) =
      ["AAA", "AAA", "AAA", "BBB", "BBB", "BBB"] := by
  obtain ⟨hp, _, hseq, _⟩ :=
    discuss_universe cPortfolio [] ["AAA", "BBB"] cOracle ⟨by decide, by decide, by decide⟩
  refine ⟨hp, ?_⟩
  rw [hseq]
  rfl

/-- Lower-casing of the Cyrillic letters, as `re.IGNORECASE` folds them. -/
def cyrLower (c : Char) : Char :=
  if 'А' ≤ c ∧ c ≤ 'Я' then Char.ofNat (c.toNat + 32)
  else if c = 'Ё' then 'ё'
  else c

/-- Does `c` match the class `[а-я]` under `re.IGNORECASE`? -/
def matchesCyrClass (c : Char) : Bool :=
  ('а' ≤ c && c ≤ 'я') || ('А' ≤ c && c ≤ 'Я')

/-- `\s` on the standard whitespace characters. -/
def isSpaceChar (c : Char) : Bool :=
  c = ' ' || c = '\t' || c = '\n' || c = '\r' || c = '\x0b' || c = '\x0c'

/-- Does the pattern `риск` (case-insensitive) match at this position? -/
def startsRisk : List Char → Bool
  | c1 :: c2 :: c3 :: c4 :: _ =>
    cyrLower c1 = 'р' && cyrLower c2 = 'и' && cyrLower c3 = 'с' && cyrLower c4 = 'к'
  | _ => false

/-- One anchored attempt of the regex `риск[а-я]*\s*[:\-]?\s*(\d+)`
(src/workflow.py line 253 and src/web_workflow.py line 390, `re.IGNORECASE`):
after the case-insensitive Cyrillic token `риск`, greedily consume Cyrillic
letters, whitespace, one optional `:` or `-`, whitespace, then capture a
nonempty digit run.  The consumed classes are pairwise disjoint, so the greedy
scan needs no backtracking. -/
def matchRiskAt (cs : List Char) : Option Nat :=
  match cs with
  | c1 :: c2 :: c3 :: c4 :: rest =>
    if cyrLower c1 = 'р' && cyrLower c2 = 'и' && cyrLower c3 = 'с' && cyrLower c4 = 'к' then
      let r1 := rest.dropWhile matchesCyrClass
      let r2 := r1.dropWhile isSpaceChar
      let r3 := match r2 with
        | c :: cs' => if c = ':' || c = '-' then cs' else r2
        | [] => r2
      let r4 := r3.dropWhile isSpaceChar
      let ds := r4.takeWhile Char.isDigit
      if ds.isEmpty then none else some (natOfRun ds)
    else none
  | _ => none

/-- `re.search`: the leftmost position where the anchored pattern matches. -/
def searchRisk : List Char → Option Nat
  | [] => none
  | c :: cs =>
    match matchRiskAt (c :: cs) with
    | some n => some n
    | none => searchRisk cs

/-- `Graph._extract_risk_level` / `WebGraph._extract_risk_level`
(src/workflow.py lines 250-256, src/web_workflow.py lines 387-393):
`int(risk_match.group(1))` when the regex matches, else the default 5. -/
def extract_risk_level (response : String) : Nat :=
  match searchRisk response.data with
  | some n => n
  | none => 5

/-- Does the case-insensitive Cyrillic token `риск` occur anywhere? -/
def hasRiskToken : List Char → Bool
  | [] => false
  | c :: cs => startsRisk (c :: cs) || hasRiskToken cs

lemma matchRiskAt_none_of_not_startsRisk (cs : List Char) (h : startsRisk cs = false) :
    matchRiskAt cs = none := by
  match cs with
  | [] => rfl
  | [c1] => rfl
  | [c1, c2] => rfl
  | [c1, c2, c3] => rfl
  | c1 :: c2 :: c3 :: c4 :: rest =>
    simp only [startsRisk] at h
    simp only [matchRiskAt, h, if_false]
    rfl

lemma searchRisk_none_of_no_token (cs : List Char) (h : hasRiskToken cs = false) :
    searchRisk cs = none := by
  induction cs with
  | nil => rfl
  | cons c cs ih =>
    simp only [hasRiskToken, Bool.or_eq_false_iff] at h
    simp only [searchRisk, matchRiskAt_none_of_not_startsRisk _ h.1]
    exact ih h.2

/-- C4 counterexample: the source regex matches only the Cyrillic token
`риск`, so a response containing only the English token, "risk: 7", falls
through to the default 5 instead of yielding 7 as the claim states. -/
theorem extract_risk_level_english_counterexample :
    extract_risk_level "risk: 7" = 5 ∧ (5 : Nat) ≠ 7 := by
  exact ⟨by decide, by decide⟩

/-- C4 (amended): the extracted risk level is determined by the Cyrillic token
only — whenever no case-insensitive occurrence of `риск` is present the
result is the default 5 (in particular for English-only responses), while a
Cyrillic token followed by an integer yields that integer. -/
theorem extract_risk_level_amended :
    (∀ s : String, hasRiskToken s.data = false → extract_risk_level s = 5) ∧
    extract_risk_level "риск: 7" = 7 ∧
    extract_risk_level "Уровень риска: 8" = 8 ∧
    extract_risk_level "РИСКОВАННОСТЬ - 3" = 3 ∧
    extract_risk_level "риск высокий" = 5 ∧
    extract_risk_level "risk: 7" = 5 := by
  refine ⟨?_, by decide, by decide, by decide, by decide, by decide⟩
  intro s h
  simp [extract_risk_level, searchRisk_none_of_no_token s.data h]

/-- Witness for the amended C4: a token-free English response takes the
default branch. -/
theorem extract_risk_level_amended_witness :
    extract_risk_level "no token at all: 9" = 5 :=
  extract_risk_level_amended.1 "no token at all: 9" (by decide)

/-- The per-decision body of `risk_node` (src/workflow.py lines 170-191,
src/web_workflow.py lines 305-325): on a successful completion the parsed
risk level and factors are stored; on a raised completion call the degraded
assessment with level 5 is stored.  Factor extraction is kept abstract as the
supplied `factors` value since C5 concerns only `risk_level`. -/
def riskAssessmentFor (ticker : String) (resp : Except String String)
    (factors : List String) : RiskAssessment :=
  match resp with
  | Except.ok r =>
    { ticker := ticker
      risk_level := extract_risk_level r
      risk_factors := factors
      recommendations := r }
  | Except.error _ =>
    { ticker := ticker
      risk_level := 5
      risk_factors := ["Ошибка анализа"]
      recommendations := "Требуется дополнительный анализ" }

/-- C5 (code bug): the source stores the matched integer unclamped, so the
response "риск: 15" produces a stored `risk_level` of 15, outside the
documented range [1,10]; the error path does default to 5. -/
theorem risk_level_out_of_range :
    (riskAssessmentFor "SBER" (Except.ok "риск: 15") []).risk_level = 15 ∧
    ¬ ((riskAssessmentFor "SBER" (Except.ok "риск: 15") []).risk_level ≤ 10) ∧
    (riskAssessmentFor "SBER" (Except.error "timeout") []).risk_level = 5 := by
  exact ⟨by decide, by decide, by decide⟩

/-- The node identifiers of the main graph (src/enums.py / src/workflow.py):
`stop` is the terminal `END` state. -/
inductive WNode
  | discussion
  | userData
  | newsData
  | risk
  | finalizer
  | stop
  deriving DecidableEq, Repr

/-- The slice of the langgraph state relevant to the data-loading cycle:
the current node together with `user_data` and `news_data`. -/
structure WFState where
  node : WNode
  user_data : List (String × PortfolioPos)
  news_data : List NewsItem
  deriving Repr

/-- One transition of the graph of src/workflow.py, with the loader outcomes
fixed (the files do not change between iterations):
* `discussion_node` (lines 82-102): an empty (falsy) `user_data` goes to the
  loader, an empty `news_data` likewise, otherwise on to the risk node;
* `user_data_node` (lines 34-56): a successful load stores the loaded mapping
  and returns to discussion, a failure ends the workflow;
* `news_data_node` (lines 58-80): symmetric;
* risk → finalizer → END are unconditional edges (lines 29-30). -/
def wfStep (loadP : Except String (List (String × PortfolioPos)))
    (loadN : Except String (List NewsItem)) (s : WFState) : WFState :=
  match s.node with
  | WNode.discussion =>
    if s.user_data.isEmpty then { s with node := WNode.userData }
    else if s.news_data.isEmpty then { s with node := WNode.newsData }
    else { s with node := WNode.risk }
  | WNode.userData =>
    match loadP with
    | Except.ok p => { s with node := WNode.discussion, user_data := p }
    | Except.error _ => { s with node := WNode.stop }
  | WNode.newsData =>
    match loadN with
    | Except.ok nd => { s with node := WNode.discussion, news_data := nd }
    | Except.error _ => { s with node := WNode.stop }
  | WNode.risk => { s with node := WNode.finalizer }
  | WNode.finalizer => { s with node := WNode.stop }
  | WNode.stop => s

/-- Invariant of the Discussion ↔ loader cycle when a loader keeps returning
empty data. -/
def wfInv (P : List (String × PortfolioPos)) (N : List NewsItem) (s : WFState) : Prop :=
  (s.node = WNode.discussion ∨ s.node = WNode.userData ∨ s.node = WNode.newsData) ∧
  (s.user_data = [] ∨ s.user_data = P) ∧ (s.news_data = [] ∨ s.news_data = N)

lemma wfInv_step (P : List (String × PortfolioPos)) (N : List NewsItem)
    (hPN : P = [] ∨ N = []) (s : WFState) (h : wfInv P N s) :
    wfInv P N (wfStep (Except.ok P) (Except.ok N) s) := by
  obtain ⟨hn, hu, hw⟩ := h
  rcases s with ⟨node, ud, nd⟩
  dsimp only at hn hu hw
  rcases hn with h | h | h <;> subst h
  · by_cases h1 : ud.isEmpty
    · simp only [wfStep, h1, if_true]
      exact ⟨Or.inr (Or.inl rfl), hu, hw⟩
    · by_cases h2 : nd.isEmpty
      · simp only [wfStep, h1, if_false, h2, if_true]
        exact ⟨Or.inr (Or.inr rfl), hu, hw⟩
      · exfalso
        have hud : ud = P := by
          rcases hu with h' | h'
          · exact absurd (by simp [h']) h1
          · exact h'
        have hP : P ≠ [] := fun hP => h1 (by simp [hud, hP])
        have hN : N = [] := hPN.resolve_left hP
        rcases hw with h' | h'
        · exact h2 (by simp [h'])
        · exact h2 (by simp [h', hN])
  · exact ⟨Or.inl rfl, Or.inr rfl, hw⟩
  · exact ⟨Or.inl rfl, hu, Or.inr rfl⟩

/-- C3: if the portfolio loader succeeds with an empty mapping (or the news
loader with an empty sequence), the step relation started at the discussion
node never reaches the END state: the workflow cycles between Discussion and
the loader node forever, with no iteration cap. -/
theorem workflow_empty_loader_no_end
    (P : List (String × PortfolioPos)) (N : List NewsItem)
    (hPN : P = [] ∨ N = []) (n : Nat) :
    ((wfStep (Except.ok P) (Except.ok N))^[n]
      ⟨WNode.discussion, [], []⟩).node ≠ WNode.stop := by
  have hinv : wfInv P N ((wfStep (Except.ok P) (Except.ok N))^[n]
      ⟨WNode.discussion, [], []⟩) := by
    induction n with
    | zero => exact ⟨Or.inl rfl, Or.inl rfl, Or.inl rfl⟩
    | succ m ih =>
      rw [Function.iterate_succ_apply']
      exact wfInv_step P N hPN _ ih
  rcases hinv.1 with h | h | h <;> simp [h]

/-- Witness for C3: with an empty portfolio file and one news item, six steps
from Discussion still have not reached END. -/
theorem workflow_empty_loader_no_end_witness :
    ((wfStep (Except.ok ([] : List (String × PortfolioPos)))
        (Except.ok [⟨"AAA", "t", "s"⟩]))^[6]
      ⟨WNode.discussion, [], []⟩).node ≠ WNode.stop :=
  workflow_empty_loader_no_end [] [⟨"AAA", "t", "s"⟩] (Or.inl rfl) 6

/-- Python `str.strip()` over the standard whitespace characters. -/
def pyStrip (s : String) : String :=
  ⟨((s.data.dropWhile isSpaceChar).reverse.dropWhile isSpaceChar).reverse⟩

/-- The observable outcome of one `router_node` invocation: the goto target
(stage strings from src/utils/enums.py), the message update, and the number
of completion calls issued. -/
structure RouterResult where
  goto : String
  message_to_user : Option String
  calls : Nat
  deriving DecidableEq, Repr

/-- `WebGraph.router_node` (src/web_workflow.py lines 80-108): an empty
stripped message ends the workflow with "Пустой запрос." before any
completion call; otherwise one completion call classifies the request
(prompt construction is folded into the oracle), and a raised call degrades
to the Other node. -/
def router_node (msg : String) (oracle : String → Except String String) : RouterResult :=
  let user_input := pyStrip msg
  if user_input = "" then ⟨"__end__", some "Пустой запрос.", 0⟩
  else
    match oracle user_input with
    | Except.ok resp =>
      let category := (pyStrip resp).toLower
      if category = "analysis" then ⟨"discussion", none, 1⟩
      else if category = "fact" then ⟨"fact", none, 1⟩
      else ⟨"other", none, 1⟩
    | Except.error _ => ⟨"other", some "Не удалось определить тип запроса.", 1⟩

/-- C8: an empty or whitespace-only user message makes the router transition
directly to END with the "empty request" message, issuing no completion
call — whatever the oracle would answer. -/
theorem router_empty_no_call (msg : String) (oracle : String → Except String String)
    (h : pyStrip msg = "") :
    router_node msg oracle = ⟨"__end__", some "Пустой запрос.", 0⟩ := by
  simp [router_node, h]

/-- Witness for C8 on a whitespace-only message with an oracle that would
answer "analysis". -/
theorem router_empty_no_call_witness :
    router_node "  \n " (fun _ => Except.ok "analysis") =
      ⟨"__end__", some "Пустой запрос.", 0⟩ :=
  router_empty_no_call "  \n " (fun _ => Except.ok "analysis") (by decide)

/-- The regime classification of `compute_risk_features`
(src/utils/risk_tool.py line 100):
`"trend" if (trend_strength >= 0.55 and resid_vol <= 0.02) else "range"`,
a fixed threshold pair. -/
def regimeOf (trend_strength resid_vol : ℚ) : String :=
  if trend_strength ≥ 55/100 ∧ resid_vol ≤ 2/100 then "trend" else "range"

/-- C9: the regime is "trend" exactly when trend_strength ≥ 0.55 and
resid_vol ≤ 0.02, and "range" otherwise; in particular (0.6, 0.01) classifies
as "trend" and (0.6, 0.03) as "range". -/
theorem regime_classification :
    (∀ ts rv : ℚ,
      (regimeOf ts rv = "trend" ↔ ts ≥ 55/100 ∧ rv ≤ 2/100) ∧
      (regimeOf ts rv = "range" ↔ ¬ (ts ≥ 55/100 ∧ rv ≤ 2/100))) ∧
    regimeOf (6/10) (1/100) = "trend" ∧ regimeOf (6/10) (3/100) = "range" := by
  refine ⟨?_, by norm_num [regimeOf], by norm_num [regimeOf]⟩
  intro ts rv
  constructor <;> by_cases h : ts ≥ (55:ℚ)/100 ∧ rv ≤ (2:ℚ)/100 <;> simp [regimeOf, h]
